import Mathlib

set_option maxRecDepth 8192

/-!
Verification of the DeepSentry agent core against its specification.

The Go sources are shallowly embedded: every string manipulation from the
`strings` package that the program uses (TrimSpace, HasPrefix, TrimPrefix,
HasSuffix, TrimSuffix, Contains, ReplaceAll, Split, Fields, ToLower, Trim)
is reproduced on `List Char`, and each program function
(security.CheckRisk, security.RecordApproval, security.checkSingleCommand,
security.cleanShellWrapper, analyzer.cleanJSON, analyzer.extractCommandString,
analyzer.RunAgentStep's post-LLM interpretation, analyzer.compressHistory,
executor.LocalExecutor.Run / executor.SSHExecutor.Run routing) is translated
definition-by-definition.  External collaborators (the LLM HTTP call and the
Go standard-library JSON decoder) are abstracted as function parameters, as
the spec treats them as black boxes.
-/

namespace DeepSentry

/-- Go `unicode.IsSpace` restricted to the Latin-1 range, which is the alphabet
relevant to every command the classifier handles.  (Go additionally accepts a
handful of non-Latin-1 Unicode space code points.) -/
def goIsSpace (c : Char) : Bool :=
  c == ' ' || c == '\t' || c == '\n' || c == '\x0b' || c == '\x0c' || c == '\r' ||
  c == '\x85' || c == '\xa0'

/-- Trim `goIsSpace` characters from both ends of a character list
(Go `strings.TrimSpace`). -/
def trimL (l : List Char) : List Char :=
  ((l.dropWhile goIsSpace).reverse.dropWhile goIsSpace).reverse

/-- Go `strings.TrimSpace`. -/
def trimSpace (s : String) : String := String.mk (trimL s.data)

/-- Go `strings.HasPrefix`. -/
def hasPrefixS (s pre : String) : Bool := pre.data.isPrefixOf s.data

/-- Go `strings.TrimPrefix`. -/
def trimPrefixS (s pre : String) : String :=
  if hasPrefixS s pre then String.mk (s.data.drop pre.data.length) else s

/-- Go `strings.HasSuffix`. -/
def hasSuffixS (s suf : String) : Bool := suf.data.isSuffixOf s.data

/-- Go `strings.TrimSuffix`. -/
def trimSuffixS (s suf : String) : String :=
  if hasSuffixS s suf then String.mk (s.data.take (s.data.length - suf.data.length)) else s

/-- Substring test on character lists (Go `strings.Contains`). -/
def containsL (pat : List Char) : List Char → Bool
  | [] => pat.isEmpty
  | c :: t => pat.isPrefixOf (c :: t) || containsL pat t

/-- Go `strings.Contains`. -/
def containsS (s pat : String) : Bool := containsL pat.data s.data

/-- Left-to-right non-overlapping replacement of every occurrence of `pat`
by `repl` (Go `strings.ReplaceAll`; the program never calls it with an empty
pattern, for which Go has special behaviour not reproduced here).  Recursion
is driven by a fuel counter, initialised to the input length (an upper bound
on the number of scan steps), so the function stays structurally recursive
and kernel-computable. -/
def replaceAllGo (pat repl : List Char) : Nat → List Char → List Char
  | _, [] => []
  | 0, l => l
  | fuel + 1, c :: t =>
    if !pat.isEmpty && pat.isPrefixOf (c :: t) then
      repl ++ replaceAllGo pat repl fuel ((c :: t).drop pat.length)
    else
      c :: replaceAllGo pat repl fuel t

/-- `replaceAllGo` with enough fuel for its input. -/
def replaceAllL (pat repl l : List Char) : List Char :=
  replaceAllGo pat repl l.length l

/-- Go `strings.ReplaceAll`. -/
def replaceAllS (s pat repl : String) : String :=
  String.mk (replaceAllL pat.data repl.data s.data)

/-- Left-to-right split on a (non-empty) separator (Go `strings.Split`),
fuel-driven like `replaceAllGo`. -/
def splitOnGo (sep : List Char) : Nat → List Char → List (List Char)
  | _, [] => [[]]
  | 0, l => [l]
  | fuel + 1, c :: t =>
    if !sep.isEmpty && sep.isPrefixOf (c :: t) then
      [] :: splitOnGo sep fuel ((c :: t).drop sep.length)
    else
      match splitOnGo sep fuel t with
      | [] => [[c]]
      | h :: r => (c :: h) :: r

/-- `splitOnGo` with enough fuel for its input. -/
def splitOnL (sep l : List Char) : List (List Char) :=
  splitOnGo sep l.length l

/-- Go `strings.Split`. -/
def goSplit (s sep : String) : List String :=
  (splitOnL sep.data s.data).map String.mk

/-- Word accumulator behind `fields` (Go `strings.Fields`): `cur` is the
current word being read, in reverse. -/
def fieldsGo : List Char → List Char → List (List Char)
  | cur, [] => if cur.isEmpty then [] else [cur.reverse]
  | cur, c :: t =>
    if goIsSpace c then
      if cur.isEmpty then fieldsGo [] t else cur.reverse :: fieldsGo [] t
    else fieldsGo (c :: cur) t

/-- Go `strings.Fields`: split around maximal runs of white space. -/
def fields (s : String) : List String := (fieldsGo [] s.data).map String.mk

/-- ASCII lower-casing of one character (Go `strings.ToLower` restricted to
ASCII, which covers every verb in the allow/deny lists). -/
def toLowerC (c : Char) : Char :=
  if 65 ≤ c.toNat ∧ c.toNat ≤ 90 then Char.ofNat (c.toNat + 32) else c

/-- Go `strings.ToLower` (ASCII fragment). -/
def toLowerS (s : String) : String := String.mk (s.data.map toLowerC)

/-- The cutset used by `checkSingleCommand`: double quote and single quote
(Go string literal `"\"'"`). -/
def quoteCutset : List Char := ['"', Char.ofNat 39]

/-- Go `strings.Trim`: remove every leading and trailing character belonging
to the cutset. -/
def trimCutset (s : String) (cutset : List Char) : String :=
  String.mk (((s.data.dropWhile (cutset.contains ·)).reverse.dropWhile
    (cutset.contains ·)).reverse)

/-- Case-insensitive equality of two equal-length character lists
(Go `strings.EqualFold`, ASCII fragment: the shell-wrapper prefixes it is
applied to are all ASCII). -/
def eqFoldL : List Char → List Char → Bool
  | [], [] => true
  | a :: as, b :: bs => toLowerC a == toLowerC b && eqFoldL as bs
  | _, _ => false

/-- Go `strings.EqualFold` (ASCII fragment). -/
def eqFoldS (a b : String) : Bool := eqFoldL a.data b.data

/-- `security.cleanShellWrapper`: the list of known shell-wrapper prefixes. -/
def wrapperPrefixes : List String :=
  ["/bin/sh -c", "sh -c", "/bin/bash -c", "bash -c", "cmd /c",
   "powershell -Command", "powershell -c"]

/-- The prefix-stripping loop of `security.cleanShellWrapper`: the first
wrapper prefix that matches case-insensitively (with the command strictly
longer than the prefix) is removed, the remainder is trimmed, and the loop
stops (`break` in the source). -/
def stripFirstWrapper : List String → String → String
  | [], cmd => cmd
  | p :: rest, cmd =>
    if cmd.data.length > p.data.length &&
        eqFoldS (String.mk (cmd.data.take p.data.length)) p then
      trimSpace (String.mk (cmd.data.drop p.data.length))
    else stripFirstWrapper rest cmd

/-- One layer of surrounding matching quotes is removed
(second half of `security.cleanShellWrapper`). -/
def stripOuterQuotes (cmd : String) : String :=
  if h : cmd.data.length ≥ 2 then
    let first := cmd.data.head (by cases hc : cmd.data with
      | nil => rw [hc] at h; simp at h
      | cons a t => simp [hc])
    let last := cmd.data.getLast (by cases hc : cmd.data with
      | nil => rw [hc] at h; simp at h
      | cons a t => simp [hc])
    if (first == '"' && last == '"') ||
       (first == Char.ofNat 39 && last == Char.ofNat 39) then
      String.mk ((cmd.data.drop 1).take (cmd.data.length - 2))
    else cmd
  else cmd

/-- `security.cleanShellWrapper`: trim, strip one known shell-wrapper prefix
(case-insensitively), strip one layer of surrounding matching quotes, trim. -/
def cleanShellWrapper (cmd0 : String) : String :=
  trimSpace (stripOuterQuotes (stripFirstWrapper wrapperPrefixes (trimSpace cmd0)))

/-- The allow-list of `security.checkSingleCommand` (`lowRiskVerbs` in the
source, a Go map used as a set). -/
def lowRiskVerbs : List String :=
  ["ls", "dir", "pwd", "cd",
   "cat", "echo", "head", "tail",
   "more", "less", "tree",
   "find", "grep", "findstr",
   "stat", "file", "where", "which",
   "whoami", "id", "hostname", "uname",
   "uptime", "date", "w",
   "ps", "top", "tasklist", "free", "df", "du",
   "ipconfig", "ifconfig", "ip", "netstat", "ss",
   "ping", "arp", "route", "nslookup", "dig",
   "wmic", "ver",
   "mkdir", "touch", "type",
   "get-childitem", "gci",
   "get-content", "gc",
   "get-location", "gl",
   "get-process", "gps",
   "get-service", "gsv",
   "get-date", "get-host",
   "write-host", "write-output",
   "select-object", "where-object", "foreach-object"]

/-- The deny-list of `security.checkSingleCommand` (`highRiskVerbs` in the
source). -/
def highRiskVerbs : List String :=
  ["rm", "del", "erase", "rmdir",
   "mv", "move", "cp", "copy",
   "mkfs", "format", "fdisk", "dd",
   "shred", "wipe",
   "reboot", "shutdown", "halt", "poweroff", "init",
   "systemctl", "service", "sc", "reg",
   "chmod", "chown", "chgrp", "attrib",
   "useradd", "usermod", "userdel", "passwd",
   "sudo", "su",
   "kill", "pkill", "killall", "taskkill",
   "wget", "curl", "nc", "ncat",
   "invoke-expression", "iex",
   "start-process"]

/-- `security.checkSingleCommand`: trim the sub-command, take the leading
verb (lower-cased, then stripped of quote characters), and decide between
allow-list, deny-list and the fail-closed default. -/
def checkSingleCommand (subCmd0 : String) : String × String :=
  let subCmd := trimSpace subCmd0
  if subCmd = "" then ("low", "")
  else
    match fields subCmd with
    | [] => ("low", "")
    | w :: _ =>
      let verb := trimCutset (toLowerS w) quoteCutset
      if verb ∈ lowRiskVerbs then ("low", "安全操作")
      else if verb ∈ highRiskVerbs then ("high", "敏感指令: " ++ verb)
      else ("high", "未知指令(" ++ verb ++ ")，需人工确认")

/-- The sub-command loop of `security.CheckRisk`: the first high-risk
sub-command decides the verdict. -/
def findHigh : List String → Option String
  | [] => none
  | sub :: rest =>
    let rr := checkSingleCommand sub
    if rr.1 = "high" then some rr.2 else findHigh rest

/-- Step 1 of `security.CheckRisk`'s analysis: strip a `local_run ` prefix
and run `cleanShellWrapper`. -/
def riskNormalize (cmd : String) : String :=
  cleanShellWrapper (if hasPrefixS cmd "local_run " then trimPrefixS cmd "local_run " else cmd)

/-- Step 3 of `security.CheckRisk`: rewrite the separators `&&`, `;`, `||`
to `::SPLIT::` and split on it. -/
def splitCompound (analyzeCmd : String) : List String :=
  goSplit (replaceAllS (replaceAllS (replaceAllS analyzeCmd "&&" "::SPLIT::")
    ";" "::SPLIT::") "||" "::SPLIT::") "::SPLIT::"

/-- The fingerprint stored in the approval cache.  The source stores the MD5
hex digest of the trimmed command bytes; the digest is content-addressed and
used only for set membership (spec glossary), so it is modelled as the
trimmed command text itself. -/
def fingerprint (cmd : String) : String := cmd

/-- `security.isApproved`: trim, reject the empty command, then look the
fingerprint up in the approval cache (a Go map used as a set, modelled as a
list without duplicates). -/
def isApproved (approved : List String) (cmd : String) : Bool :=
  let c := trimSpace cmd
  if c = "" then false else decide (fingerprint c ∈ approved)

/-- `security.RecordApproval`: trim, ignore the empty command, insert the
fingerprint into the cache (map insertion, modelled as insert-if-absent). -/
def RecordApproval (approved : List String) (cmd : String) : List String :=
  let c := trimSpace cmd
  if c = "" then approved
  else if fingerprint c ∈ approved then approved
  else fingerprint c :: approved

/-- `security.CheckRisk`: empty command, approval cache, normalization,
redirection check, compound split, per-sub-command loop, in the source's
order. -/
def CheckRisk (approved : List String) (cmd0 : String) : String × String :=
  let cmd := trimSpace cmd0
  if cmd = "" then ("low", "空命令")
  else if isApproved approved cmd then ("low", "用户已授权 (Session)")
  else
    let analyzeCmd := riskNormalize cmd
    if containsS analyzeCmd ">" then ("high", "检测到文件重定向 (>)")
    else
      match findHigh (splitCompound analyzeCmd) with
      | some reason => ("high", reason)
      | none => ("low", "安全操作")

/-- The routing decision of `executor.SSHExecutor.Run`: which of the four
execution paths a command takes.  The side-effecting body of each path
(one-shot local process, SFTP transfer, sentinel-framed remote shell write)
is beyond a shallow embedding; the string processing that selects the path
and rewrites the command is translated exactly. -/
inductive SSHRunPath where
  | localExec (realCmd : String)
  | usage (msg : String)
  | upload (src dst : String)
  | download (src dst : String)
  | remoteShell (cmd : String)
deriving DecidableEq

/-- `executor.SSHExecutor.Run`, routing layer: `strings.Contains` test for
the `local_run ` marker (with `strings.ReplaceAll` removal), then the
`upload `/`download ` prefixes with the exactly-three-fields check, then the
remote shell. -/
def sshRunPath (cmdStr : String) : SSHRunPath :=
  if containsS cmdStr "local_run " then
    .localExec (replaceAllS cmdStr "local_run " "")
  else if hasPrefixS cmdStr "upload " then
    match fields cmdStr with
    | [_, a, b] => .upload a b
    | _ => .usage "用法: upload <本地文件> <远程路径>"
  else if hasPrefixS cmdStr "download " then
    match fields cmdStr with
    | [_, a, b] => .download a b
    | _ => .usage "用法: download <远程文件> <本地路径>"
  else .remoteShell cmdStr

/-- Step 1 of `executor.LocalExecutor.Run`: remove the `local_run ` marker
(everywhere, via `strings.ReplaceAll`, guarded by `strings.Contains`) and
trim. -/
def localCleaned (cmdStr : String) : String :=
  trimSpace (if containsS cmdStr "local_run " then replaceAllS cmdStr "local_run " "" else cmdStr)

/-- The routing decision of `executor.LocalExecutor.Run` after marker
cleaning: transfer interception or platform shell. -/
inductive LocalRunPath where
  | usage (msg : String)
  | copyFile (src dst : String)
  | shell (cmd : String)
deriving DecidableEq

/-- `executor.LocalExecutor.Run`, routing layer (the platform-shell dispatch
and output transcoding inside the `shell` path are process effects, outside
the embedding). -/
def localRunPath (cmdStr0 : String) : LocalRunPath :=
  let cmdStr := localCleaned cmdStr0
  if hasPrefixS cmdStr "download " || hasPrefixS cmdStr "upload " then
    match fields cmdStr with
    | [_, a, b] => .copyFile a b
    | _ => .usage "用法错误: transfer <src> <dst>"
  else .shell cmdStr

/-- The dynamically-typed `final_report` field of
`analyzer.CompatibilityResponse` (a Go `interface{}`), as discriminated by
the `switch` in `RunAgentStep`: a JSON string, a JSON object/array (carried
here as its `json.MarshalIndent` pretty-printing), JSON null (Go `nil`), or
any other non-nil value (carried as its `fmt.Sprintf("%v")` rendering). -/
inductive ReportVal where
  | null
  | str (s : String)
  | structured (pretty : String)
  | other (rendered : String)
deriving DecidableEq

/-- `analyzer.CompatibilityResponse`: the tolerant schema.  In the source the
`command` field carries JSON key "command", `cmdArray` carries JSON key
"cmd" (a list of strings), and `explanation` is the commonly-confused
alias for `thought`.  Defaults are the Go zero values. -/
structure CompatibilityResponse where
  thought : String := ""
  command : String := ""
  riskLevel : String := ""
  isFinished : Bool := false
  finalReport : ReportVal := .null
  cmdArray : List String := []
  explanation : String := ""
deriving DecidableEq

/-- The Go zero value `var compat CompatibilityResponse`. -/
def zeroCompat : CompatibilityResponse := {}

/-- `analyzer.AgentResponse`: the structured action produced by one
interpretation step. -/
structure AgentResponse where
  thought : String := ""
  command : String := ""
  riskLevel : String := ""
  reason : String := ""
  isFinished : Bool := false
  finalReport : String := ""
deriving DecidableEq

/-- `analyzer.inferThoughtFromCommand`. -/
def inferThoughtFromCommand (cmd : String) : String :=
  if hasPrefixS cmd "upload" then "正在上传文件到目标主机..."
  else if hasPrefixS cmd "download" then "正在下载文件到本地分析..."
  else if cmd = "" then "分析中..."
  else "执行: " ++ cmd

/-- The markdown-fence stripping of `analyzer.cleanJSON` (its step 1). -/
def fenceStrip (s0 : String) : String :=
  trimSpace (trimSuffixS (trimPrefixS (trimPrefixS (trimSpace s0) "```json") "```") "```")

/-- `analyzer.cleanJSON`: fence stripping followed by the defensive rewrite
of every backslash-pipe pair to backslash-backslash-pipe. -/
def cleanJSON (s0 : String) : String :=
  let s := fenceStrip s0
  if containsS s "\\|" then replaceAllS s "\\|" "\\\\|" else s

/-- The bracket repair attempted by `RunAgentStep` when the strict parse
fails: append a closing brace when the trimmed text does not end in one. -/
def bracketRepair (cleanResp : String) : String :=
  if !(hasSuffixS (trimSpace cleanResp) "\x7d") then cleanResp ++ "\x7d" else cleanResp

/-- The character-by-character value scan of `analyzer.extractCommandString`
(its step 4): two-state automaton over normal / after-backslash, un-escaping
backslash-quote, backslash-backslash, backslash-slash, `\n`, `\r`, `\t`,
keeping any other escape pair verbatim, and returning on the first
unescaped closing quote; the scan fails if the input ends first. -/
def scanValue : List Char → Bool → List Char → String × Bool
  | [], _, _ => ("", false)
  | c :: rest, inEscape, acc =>
    if inEscape then
      if c == '"' || c == '\\' || c == '/' then scanValue rest false (acc ++ [c])
      else if c == 'n' then scanValue rest false (acc ++ ['\n'])
      else if c == 'r' then scanValue rest false (acc ++ ['\r'])
      else if c == 't' then scanValue rest false (acc ++ ['\t'])
      else scanValue rest false (acc ++ ['\\', c])
    else
      if c == '\\' then scanValue rest true acc
      else if c == '"' then (String.mk acc, true)
      else scanValue rest false (acc ++ [c])

/-- First character-index at which `pat` occurs in `l`
(Go `strings.Index`). -/
def indexOfSubstrL (pat : List Char) : List Char → Option Nat
  | [] => if pat.isPrefixOf [] then some 0 else none
  | c :: t =>
    if pat.isPrefixOf (c :: t) then some 0
    else (indexOfSubstrL pat t).map (· + 1)

/-- `analyzer.extractCommandString`: locate the literal `"command"` key, skip
separator characters, find the value's opening quote, then scan. -/
def extractCommandString (jsonStr : String) : String × Bool :=
  let key : List Char := '"' :: ("command".data ++ ['"'])
  match indexOfSubstrL key jsonStr.data with
  | none => ("", false)
  | some idx =>
    let afterKey := jsonStr.data.drop (idx + key.length)
    let afterSep := afterKey.dropWhile
      (fun c => c == ' ' || c == ':' || c == '\n' || c == '\r')
    match afterSep.dropWhile (fun c => c != '"') with
    | [] => ("", false)
    | _ :: afterQuote => scanValue afterQuote false []

/-- The Go standard-library JSON decoder `json.Unmarshal` targeting
`CompatibilityResponse`, abstracted as a black box (it is not code of this
repository).  Mirroring `json.Unmarshal(data, &compat)`, it receives the
current value of the struct (Go may leave a partially-filled struct behind
on error) and returns the updated struct together with `none` on success or
`some errorMessage` on failure. -/
def Decoder := String → CompatibilityResponse → CompatibilityResponse × Option String

/-- The command adaptation of `RunAgentStep`: `command` (JSON "command") as
a plain string wins; otherwise a non-empty `cmdArray` (JSON "cmd", a list of
strings) contributes its last element. -/
def adaptCommand (compat : CompatibilityResponse) : String :=
  if compat.command ≠ "" then compat.command
  else if compat.cmdArray ≠ [] then compat.cmdArray.getLastD ""
  else ""

/-- The thought adaptation of `RunAgentStep`: `thought`, else the
`explanation` alias, else a heuristic from the command. -/
def adaptThought (compat : CompatibilityResponse) (cmd : String) : String :=
  if compat.thought ≠ "" then compat.thought
  else if compat.explanation ≠ "" then compat.explanation
  else inferThoughtFromCommand cmd

/-- The `final_report` adaptation of `RunAgentStep` (the `switch` on the
dynamically-typed field). -/
def reportToString : ReportVal → String
  | .str v => v
  | .structured pretty => pretty
  | .other rendered => rendered
  | .null => ""

/-- The report fallback at the end of `RunAgentStep`: when the step is
final and the report is blank or the known placeholder, synthesize one from
the thought. -/
def finalizeReport (isFinished : Bool) (report thought : String) : String :=
  if isFinished then
    if trimSpace report = "" ∨ report = "任务完成" then
      if thought ≠ "" then "📋 任务总结: " ++ thought
      else "任务已结束 (详细结果请向上翻阅执行日志)"
    else report
  else report

/-- The `AgentResponse` assembly of `RunAgentStep` from a successfully
parsed `CompatibilityResponse`: command/thought/report adaptation, the
unconditional overwrite of the risk fields by `security.CheckRisk` whenever
the command is non-empty, and the final-report fallback. -/
def buildResponse (approved : List String) (compat : CompatibilityResponse) : AgentResponse :=
  let cmd := adaptCommand compat
  let thought := adaptThought compat cmd
  let risk := if cmd ≠ "" then CheckRisk approved cmd else (compat.riskLevel, "")
  { thought := thought
    command := cmd
    riskLevel := risk.1
    reason := risk.2
    isFinished := compat.isFinished
    finalReport := finalizeReport compat.isFinished (reportToString compat.finalReport) thought }

/-- The post-LLM interpretation of `RunAgentStep` (its lines from `cleanJSON`
to the final `return`): strict parse, bracket repair, character-level scan
extraction, terminal failure action.  The second component is the Go `error`
result, `none` at every return site after the LLM call succeeded. -/
def interpret (decode : Decoder) (approved : List String) (rawResp : String) :
    AgentResponse × Option String :=
  let cleanResp := cleanJSON rawResp
  match decode cleanResp zeroCompat with
  | (compat, none) => (buildResponse approved compat, none)
  | (compat1, some errMsg1) =>
    match decode (bracketRepair cleanResp) compat1 with
    | (compat2, none) => (buildResponse approved compat2, none)
    | (compat2, some _) =>
      if (extractCommandString cleanResp).2 = true ∧ (extractCommandString cleanResp).1 ≠ "" then
        (buildResponse approved
          { compat2 with
            command := (extractCommandString cleanResp).1
            thought := "JSON 格式异常(转义错误)，已启用【字符级扫描】精确提取命令。"
            riskLevel := "high" }, none)
      else
        ({ thought := "AI 响应格式完全不可读"
           riskLevel := "low"
           isFinished := true
           finalReport := "❌ 解析失败: " ++ errMsg1 ++ "\n原始响应:\n" ++ rawResp },
         none)

/-- `analyzer.Message`. -/
structure Message where
  role : String
  content : String
deriving DecidableEq

/-- The summarization request built by `analyzer.compressHistory`: system
instruction, the slice to summarize, and the closing user message. -/
def summaryPromptFor (toSummarize : List Message) : List Message :=
  ({ role := "system",
     content := "你是一个专业的会议记录员。请阅读以下对话，将其压缩成一段简练的【前情提要】。保留关键的系统信息、已执行的命令和发现的线索。" } : Message)
  :: (toSummarize ++ [{ role := "user", content := "请生成摘要。" }])

/-- `analyzer.compressHistory` with the LLM collaborator abstracted: replace
the oldest ten messages by one system summary message; on LLM failure the
history is returned unchanged (the caller ignores the error). -/
def compressHistory (callLLM : List Message → Except String String)
    (history : List Message) : List Message :=
  if history.length < 10 then history
  else
    match callLLM (summaryPromptFor (history.take 10)) with
    | .error _ => history
    | .ok summaryText =>
      ({ role := "system", content := "【前情提要】:\n" ++ summaryText } : Message)
        :: history.drop 10

/-- The compression guard in `RunAgentStep`: compress only when the history
holds more than fifteen messages. -/
def maybeCompress (callLLM : List Message → Except String String)
    (history : List Message) : List Message :=
  if history.length > 15 then compressHistory callLLM history else history

/-- The JSON string escaping that the system prompt demands of the model
(double quote to backslash-quote, backslash to double backslash); used to
express the scanning extractor's round-trip property. -/
def encodeL : List Char → List Char
  | [] => []
  | c :: t => (if c = '"' ∨ c = '\\' then ['\\', c] else [c]) ++ encodeL t

/-- `encodeL` on strings. -/
def encodeJSONString (s : String) : String := String.mk (encodeL s.data)

theorem length_dropWhile_le (p : Char → Bool) (l : List Char) :
    (l.dropWhile p).length ≤ l.length := by
  induction l with
  | nil => simp [List.dropWhile]
  | cons a t ih =>
    by_cases h : p a = true
    · simp only [List.dropWhile_cons, if_pos h, List.length_cons]
      omega
    · simp [List.dropWhile_cons, h]

theorem dropWhile_dropWhile (p : Char → Bool) (l : List Char) :
    (l.dropWhile p).dropWhile p = l.dropWhile p := by
  induction l with
  | nil => rfl
  | cons a t ih =>
    by_cases h : p a = true
    · simp [List.dropWhile_cons, h, ih]
    · simp [List.dropWhile_cons, h]

theorem dropWhile_eq_self_of_prefix (p : Char → Bool) {l m : List Char}
    (h : l <+: m) (hm : m.dropWhile p = m) : l.dropWhile p = l := by
  cases l with
  | nil => rfl
  | cons a as =>
    obtain ⟨t, ht⟩ := h
    have hpa : p a = false := by
      by_contra hcon
      have hpa' : p a = true := by
        cases hb : p a with
        | false => exact absurd hb hcon
        | true => rfl
      rw [← ht, List.cons_append, List.dropWhile_cons, if_pos hpa'] at hm
      have hlen : ((as ++ t).dropWhile p).length = (a :: (as ++ t)).length :=
        congrArg List.length hm
      rw [List.length_cons] at hlen
      have hle := length_dropWhile_le p (as ++ t)
      omega
    simp [List.dropWhile_cons, hpa]

theorem trimL_idem (l : List Char) : trimL (trimL l) = trimL l := by
  unfold trimL
  have hu : (l.dropWhile goIsSpace).dropWhile goIsSpace = l.dropWhile goIsSpace :=
    dropWhile_dropWhile goIsSpace l
  have hvpre :
      ((l.dropWhile goIsSpace).reverse.dropWhile goIsSpace).reverse <+: l.dropWhile goIsSpace := by
    have hs : (l.dropWhile goIsSpace).reverse.dropWhile goIsSpace <:+
        (l.dropWhile goIsSpace).reverse := List.dropWhile_suffix goIsSpace
    have := List.reverse_prefix.mpr hs
    simpa using this
  have h1 : ((l.dropWhile goIsSpace).reverse.dropWhile goIsSpace).reverse.dropWhile goIsSpace =
      ((l.dropWhile goIsSpace).reverse.dropWhile goIsSpace).reverse :=
    dropWhile_eq_self_of_prefix goIsSpace hvpre hu
  rw [h1, List.reverse_reverse, dropWhile_dropWhile]

theorem trimSpace_idem (s : String) : trimSpace (trimSpace s) = trimSpace s := by
  show String.mk (trimL (trimL s.data)) = String.mk (trimL s.data)
  exact congrArg String.mk (trimL_idem s.data)

theorem replaceAllGo_of_not_contains (pat repl : List Char) (fuel : Nat) (l : List Char)
    (h : containsL pat l = false) : replaceAllGo pat repl fuel l = l := by
  induction fuel generalizing l with
  | zero => cases l <;> rfl
  | succ n ih =>
    cases l with
    | nil => rfl
    | cons c t =>
      rw [containsL] at h
      simp only [Bool.or_eq_false_iff] at h
      rw [replaceAllGo]
      rw [if_neg (by simp [h.1])]
      rw [ih t h.2]

theorem replaceAllL_of_not_contains (pat repl : List Char) (l : List Char)
    (h : containsL pat l = false) : replaceAllL pat repl l = l :=
  replaceAllGo_of_not_contains pat repl l.length l h

theorem findHigh_eq_some_iff (l : List String) :
    (∃ r, findHigh l = some r) ↔ ∃ sub ∈ l, (checkSingleCommand sub).1 = "high" := by
  induction l with
  | nil => simp [findHigh]
  | cons s t ih =>
    by_cases h : (checkSingleCommand s).1 = "high"
    · constructor
      · intro _
        exact ⟨s, by simp, h⟩
      · intro _
        exact ⟨(checkSingleCommand s).2, by simp [findHigh, h]⟩
    · rw [show findHigh (s :: t) = findHigh t by simp [findHigh, h]]
      rw [ih]
      constructor
      · rintro ⟨sub, hmem, hsub⟩
        exact ⟨sub, List.mem_cons_of_mem s hmem, hsub⟩
      · rintro ⟨sub, hmem, hsub⟩
        rcases List.mem_cons.mp hmem with heq | hmem2
        · exact absurd (heq ▸ hsub) h
        · exact ⟨sub, hmem2, hsub⟩

theorem scanValue_encode (c : List Char) (rest acc : List Char) :
    scanValue (encodeL c ++ '"' :: rest) false acc = (String.mk (acc ++ c), true) := by
  induction c generalizing acc with
  | nil => simp [encodeL, scanValue]
  | cons ch t ih =>
    by_cases h1 : ch = '"'
    · subst h1
      simp only [encodeL, if_pos (Or.inl rfl), List.cons_append, List.nil_append]
      simp [scanValue, ih]
    · by_cases h2 : ch = '\\'
      · subst h2
        simp only [encodeL, if_pos (Or.inr rfl), List.cons_append, List.nil_append]
        simp [scanValue, ih]
      · simp only [encodeL, if_neg (by tauto), List.cons_append, List.nil_append]
        simp [scanValue, h1, h2, ih]

theorem mk_append_ne_empty (a b : String) (h : a.data ≠ []) : a ++ b ≠ "" := by
  intro hc
  apply h
  have h2 : (a ++ b).data = "".data := congrArg String.data hc
  have h3 : a.data ++ b.data = ([] : List Char) := h2
  exact List.append_eq_nil.mp h3 |>.1

theorem finalizeReport_ne_empty (report thought : String) :
    finalizeReport true report thought ≠ "" := by
  unfold finalizeReport
  rw [if_pos rfl]
  by_cases hb : trimSpace report = "" ∨ report = "任务完成"
  · rw [if_pos hb]
    by_cases ht : thought ≠ ""
    · rw [if_pos ht]
      exact mk_append_ne_empty "📋 任务总结: " thought (by decide)
    · rw [if_neg ht]
      decide
  · rw [if_neg hb]
    intro hc
    exact hb (Or.inl (by rw [hc]; decide))

theorem buildResponse_isFinished (ap : List String) (compat : CompatibilityResponse) :
    (buildResponse ap compat).isFinished = compat.isFinished := rfl

theorem buildResponse_command (ap : List String) (compat : CompatibilityResponse) :
    (buildResponse ap compat).command = adaptCommand compat := rfl

theorem buildResponse_thought (ap : List String) (compat : CompatibilityResponse) :
    (buildResponse ap compat).thought = adaptThought compat (adaptCommand compat) := rfl

theorem buildResponse_finalReport (ap : List String) (compat : CompatibilityResponse) :
    (buildResponse ap compat).finalReport =
      finalizeReport compat.isFinished (reportToString compat.finalReport)
        (adaptThought compat (adaptCommand compat)) := rfl

theorem buildResponse_risk (ap : List String) (compat : CompatibilityResponse)
    (h : adaptCommand compat ≠ "") :
    ((buildResponse ap compat).riskLevel, (buildResponse ap compat).reason) =
      CheckRisk ap (adaptCommand compat) := by
  show ((if adaptCommand compat ≠ "" then CheckRisk ap (adaptCommand compat)
        else (compat.riskLevel, "")).1,
       (if adaptCommand compat ≠ "" then CheckRisk ap (adaptCommand compat)
        else (compat.riskLevel, "")).2) = CheckRisk ap (adaptCommand compat)
  rw [if_pos h]

theorem buildResponse_report_nonempty (ap : List String) (compat : CompatibilityResponse)
    (h : (buildResponse ap compat).isFinished = true) :
    (buildResponse ap compat).finalReport ≠ "" := by
  rw [buildResponse_finalReport]
  rw [buildResponse_isFinished] at h
  rw [h]
  exact finalizeReport_ne_empty _ _

theorem isApproved_nil (cmd : String) : isApproved [] cmd = false := by
  unfold isApproved
  by_cases h : trimSpace cmd = ""
  · rw [if_pos h]
  · rw [if_neg h]
    simp

theorem interpret_eq_strict (decode : Decoder) (approved : List String) (raw : String)
    (c1 : CompatibilityResponse) (h1 : decode (cleanJSON raw) zeroCompat = (c1, none)) :
    interpret decode approved raw = (buildResponse approved c1, none) := by
  simp only [interpret, h1]

theorem interpret_eq_repair (decode : Decoder) (approved : List String) (raw : String)
    (c1 c2 : CompatibilityResponse) (m1 : String)
    (h1 : decode (cleanJSON raw) zeroCompat = (c1, some m1))
    (h2 : decode (bracketRepair (cleanJSON raw)) c1 = (c2, none)) :
    interpret decode approved raw = (buildResponse approved c2, none) := by
  simp only [interpret, h1, h2]

theorem interpret_eq_scan (decode : Decoder) (approved : List String) (raw : String)
    (c1 c2 : CompatibilityResponse) (m1 m2 : String)
    (h1 : decode (cleanJSON raw) zeroCompat = (c1, some m1))
    (h2 : decode (bracketRepair (cleanJSON raw)) c1 = (c2, some m2))
    (h3 : (extractCommandString (cleanJSON raw)).2 = true ∧
          (extractCommandString (cleanJSON raw)).1 ≠ "") :
    interpret decode approved raw =
      (buildResponse approved
        { c2 with
          command := (extractCommandString (cleanJSON raw)).1
          thought := "JSON 格式异常(转义错误)，已启用【字符级扫描】精确提取命令。"
          riskLevel := "high" }, none) := by
  simp only [interpret, h1, h2]
  rw [if_pos h3]

theorem interpret_eq_fail (decode : Decoder) (approved : List String) (raw : String)
    (c1 c2 : CompatibilityResponse) (m1 m2 : String)
    (h1 : decode (cleanJSON raw) zeroCompat = (c1, some m1))
    (h2 : decode (bracketRepair (cleanJSON raw)) c1 = (c2, some m2))
    (h3 : ¬((extractCommandString (cleanJSON raw)).2 = true ∧
          (extractCommandString (cleanJSON raw)).1 ≠ "")) :
    interpret decode approved raw =
      ({ thought := "AI 响应格式完全不可读"
         riskLevel := "low"
         isFinished := true
         finalReport := "❌ 解析失败: " ++ m1 ++ "\n原始响应:\n" ++ raw }, none) := by
  simp only [interpret, h1, h2]
  rw [if_neg h3]

/-- Claim C1: for every raw model text from which a non-empty command is
extracted, the returned action carries exactly the Risk Classifier's verdict
(level and reason) for that command; the model's self-reported risk_level
never survives into the returned action when the command is non-empty. -/
theorem c1_classifier_verdict_overrides_model_risk (decode : Decoder)
    (approved : List String) (raw : String)
    (h : (interpret decode approved raw).1.command ≠ "") :
    ((interpret decode approved raw).1.riskLevel,
     (interpret decode approved raw).1.reason) =
      CheckRisk approved ((interpret decode approved raw).1.command) := by
  rcases hd1 : decode (cleanJSON raw) zeroCompat with ⟨c1, e1⟩
  cases e1 with
  | none =>
    rw [interpret_eq_strict decode approved raw c1 hd1] at h ⊢
    rw [buildResponse_command] at h ⊢
    exact buildResponse_risk approved c1 h
  | some m1 =>
    rcases hd2 : decode (bracketRepair (cleanJSON raw)) c1 with ⟨c2, e2⟩
    cases e2 with
    | none =>
      rw [interpret_eq_repair decode approved raw c1 c2 m1 hd1 hd2] at h ⊢
      rw [buildResponse_command] at h ⊢
      exact buildResponse_risk approved c2 h
    | some m2 =>
      by_cases h3 : (extractCommandString (cleanJSON raw)).2 = true ∧
          (extractCommandString (cleanJSON raw)).1 ≠ ""
      · rw [interpret_eq_scan decode approved raw c1 c2 m1 m2 hd1 hd2 h3] at h ⊢
        rw [buildResponse_command] at h ⊢
        exact buildResponse_risk approved _ h
      · rw [interpret_eq_fail decode approved raw c1 c2 m1 m2 hd1 hd2 h3] at h
        exact absurd rfl h

theorem c1_classifier_verdict_overrides_model_risk_witness :
    (interpret (fun _ _ => ({ command := "ls" }, none)) [] "dummy").1.command ≠ "" ∧
    ((interpret (fun _ _ => ({ command := "ls" }, none)) [] "dummy").1.riskLevel,
     (interpret (fun _ _ => ({ command := "ls" }, none)) [] "dummy").1.reason) =
      CheckRisk [] ((interpret (fun _ _ => ({ command := "ls" }, none)) [] "dummy").1.command) :=
  ⟨by decide,
   c1_classifier_verdict_overrides_model_risk (fun _ _ => ({ command := "ls" }, none)) [] "dummy"
     (by decide)⟩

/-- Claim C2: with nothing yet approved, the classifier returns high risk
with the redirection reason whenever the normalized command contains `>`
(before any splitting, so even when every verb is allow-listed); otherwise
the verdict is high exactly when some sub-command obtained by splitting on
`&&`, `;`, `||` is high; in particular the two compound examples classify
as high and low respectively. -/
theorem c2_redirection_then_split_escalation (cmd : String) :
    (containsS (riskNormalize (trimSpace cmd)) ">" = true →
      CheckRisk [] cmd = ("high", "检测到文件重定向 (>)")) ∧
    (containsS (riskNormalize (trimSpace cmd)) ">" = false →
      ((CheckRisk [] cmd).1 = "high" ↔
        ∃ sub ∈ splitCompound (riskNormalize (trimSpace cmd)),
          (checkSingleCommand sub).1 = "high")) ∧
    CheckRisk [] "cd /tmp && rm -rf x" = ("high", "敏感指令: rm") ∧
    CheckRisk [] "cd /tmp && ls" = ("low", "安全操作") := by
  refine ⟨?_, ?_, by decide, by decide⟩
  · intro h
    by_cases h0 : trimSpace cmd = ""
    · rw [h0] at h
      exact absurd h (by decide)
    · simp only [CheckRisk]
      rw [if_neg h0, if_neg (by rw [isApproved_nil]; exact Bool.false_ne_true), if_pos h]
  · intro h
    by_cases h0 : trimSpace cmd = ""
    · have hcr : CheckRisk [] cmd = ("low", "空命令") := by
        simp only [CheckRisk]
        rw [if_pos h0]
      refine iff_of_false (by rw [hcr]; decide) ?_
      rw [h0]
      decide
    · simp only [CheckRisk]
      rw [if_neg h0, if_neg (by rw [isApproved_nil]; exact Bool.false_ne_true), if_neg (by rw [h]; exact Bool.false_ne_true)]
      rw [← findHigh_eq_some_iff]
      cases hf : findHigh (splitCompound (riskNormalize (trimSpace cmd))) with
      | none => simp [hf]
      | some r => simp [hf]

theorem c2_redirection_then_split_escalation_witness :
    containsS (riskNormalize (trimSpace "echo hi > file.txt")) ">" = true ∧
    CheckRisk [] "echo hi > file.txt" = ("high", "检测到文件重定向 (>)") ∧
    containsS (riskNormalize (trimSpace "rm -rf /tmp/x")) ">" = false ∧
    ((CheckRisk [] "rm -rf /tmp/x").1 = "high" ↔
      ∃ sub ∈ splitCompound (riskNormalize (trimSpace "rm -rf /tmp/x")),
        (checkSingleCommand sub).1 = "high") :=
  ⟨by decide,
   (c2_redirection_then_split_escalation "echo hi > file.txt").1 (by decide),
   by decide,
   (c2_redirection_then_split_escalation "rm -rf /tmp/x").2.1 (by decide)⟩

/-- Claim C3: once a command with non-blank trimmed text is recorded as
approved, classifying the same text again returns low risk with the
previously-authorized reason, bypassing every later check; classification of
any command whose trimmed text differs is unaffected; and recording the same
command twice leaves the cache exactly as recording it once. -/
theorem c3_approval_cache_behavior (cache : List String) (c d : String) :
    (trimSpace c ≠ "" →
      CheckRisk (RecordApproval cache c) c = ("low", "用户已授权 (Session)")) ∧
    (trimSpace d ≠ trimSpace c →
      CheckRisk (RecordApproval cache c) d = CheckRisk cache d) ∧
    RecordApproval (RecordApproval cache c) c = RecordApproval cache c := by
  refine ⟨?_, ?_, ?_⟩
  · intro h
    have happ : isApproved (RecordApproval cache c) (trimSpace c) = true := by
      simp only [isApproved]
      rw [trimSpace_idem, if_neg h]
      simp only [decide_eq_true_eq, fingerprint]
      simp only [RecordApproval, fingerprint]
      rw [if_neg h]
      by_cases hm : trimSpace c ∈ cache
      · rw [if_pos hm]
        exact hm
      · rw [if_neg hm]
        exact List.mem_cons_self _ _
    simp only [CheckRisk]
    rw [if_neg h, if_pos happ]
  · intro hne
    have happ : isApproved (RecordApproval cache c) (trimSpace d) =
        isApproved cache (trimSpace d) := by
      simp only [isApproved]
      by_cases hd0 : trimSpace (trimSpace d) = ""
      · rw [if_pos hd0, if_pos hd0]
      · rw [if_neg hd0, if_neg hd0]
        have hmem : (fingerprint (trimSpace (trimSpace d)) ∈ RecordApproval cache c) ↔
            (fingerprint (trimSpace (trimSpace d)) ∈ cache) := by
          simp only [RecordApproval, fingerprint]
          rw [trimSpace_idem]
          by_cases hc0 : trimSpace c = ""
          · rw [if_pos hc0]
          · rw [if_neg hc0]
            by_cases hm : trimSpace c ∈ cache
            · rw [if_pos hm]
            · rw [if_neg hm]
              rw [List.mem_cons]
              constructor
              · rintro (heq | hmem2)
                · exact absurd heq hne
                · exact hmem2
              · intro hmem2
                exact Or.inr hmem2
        exact decide_eq_decide.mpr hmem
    simp only [CheckRisk, happ]
  · simp only [RecordApproval, fingerprint]
    by_cases hc0 : trimSpace c = ""
    · simp [hc0]
    · by_cases hm : trimSpace c ∈ cache
      · simp [hc0, hm]
      · simp [hc0, hm]

theorem c3_approval_cache_behavior_witness :
    trimSpace "rm -rf /tmp/x" ≠ "" ∧
    CheckRisk (RecordApproval [] "rm -rf /tmp/x") "rm -rf /tmp/x" =
      ("low", "用户已授权 (Session)") ∧
    trimSpace "ls" ≠ trimSpace "rm -rf /tmp/x" ∧
    CheckRisk (RecordApproval [] "rm -rf /tmp/x") "ls" = CheckRisk [] "ls" :=
  ⟨by decide,
   (c3_approval_cache_behavior [] "rm -rf /tmp/x" "ls").1 (by decide),
   by decide,
   (c3_approval_cache_behavior [] "rm -rf /tmp/x" "ls").2.1 (by decide)⟩

/-- Claim C4: on a single sub-command the classifier extracts the leading
verb lower-cased and stripped of quote characters; an allow-listed verb gives
low risk, a deny-listed verb gives high risk with the verb named in the
reason, and any other verb gives high risk with the unknown-instruction
reason (fail-closed); in particular `dosomething` classifies as high. -/
theorem c4_verb_allow_deny_fail_closed :
    (∀ subCmd w rest, fields (trimSpace subCmd) = w :: rest →
      (trimCutset (toLowerS w) quoteCutset ∈ lowRiskVerbs →
        checkSingleCommand subCmd = ("low", "安全操作")) ∧
      (trimCutset (toLowerS w) quoteCutset ∈ highRiskVerbs →
        checkSingleCommand subCmd =
          ("high", "敏感指令: " ++ trimCutset (toLowerS w) quoteCutset)) ∧
      (trimCutset (toLowerS w) quoteCutset ∉ lowRiskVerbs →
        trimCutset (toLowerS w) quoteCutset ∉ highRiskVerbs →
        checkSingleCommand subCmd =
          ("high", "未知指令(" ++ trimCutset (toLowerS w) quoteCutset ++ ")，需人工确认"))) ∧
    CheckRisk [] "dosomething" = ("high", "未知指令(dosomething)，需人工确认") := by
  refine ⟨?_, by decide⟩
  intro subCmd w rest hf
  have h0 : ¬(trimSpace subCmd = "") := by
    intro hc
    rw [hc] at hf
    have hnil : fields "" = [] := rfl
    rw [hnil] at hf
    simp at hf
  have hcc : checkSingleCommand subCmd =
      (if trimCutset (toLowerS w) quoteCutset ∈ lowRiskVerbs then ("low", "安全操作")
       else if trimCutset (toLowerS w) quoteCutset ∈ highRiskVerbs then
         ("high", "敏感指令: " ++ trimCutset (toLowerS w) quoteCutset)
       else ("high", "未知指令(" ++ trimCutset (toLowerS w) quoteCutset ++ ")，需人工确认")) := by
    simp only [checkSingleCommand]
    rw [if_neg h0, hf]
  have hdisj : ∀ v ∈ highRiskVerbs, v ∉ lowRiskVerbs := by decide
  refine ⟨fun hl => ?_, fun hh => ?_, fun hnl hnh => ?_⟩
  · rw [hcc, if_pos hl]
  · rw [hcc, if_neg (hdisj _ hh), if_pos hh]
  · rw [hcc, if_neg hnl, if_neg hnh]

theorem c4_verb_allow_deny_fail_closed_witness :
    fields (trimSpace "sudo ls") = "sudo" :: ["ls"] ∧
    trimCutset (toLowerS "sudo") quoteCutset ∈ highRiskVerbs ∧
    checkSingleCommand "sudo ls" =
      ("high", "敏感指令: " ++ trimCutset (toLowerS "sudo") quoteCutset) :=
  ⟨by decide, by decide,
   ((c4_verb_allow_deny_fail_closed.1 "sudo ls" "sudo" ["ls"] (by decide)).2.1 (by decide))⟩

/-- Claim C5: after the LLM call has succeeded, interpretation always returns
an action and a nil error; when the strict parse, the bracket repair and the
command scan all fail, the returned action is terminal with an explanatory
report; and every returned action with is_finished true has a non-empty
final report. -/
theorem c5_interpret_never_fails_hard (decode : Decoder) (approved : List String)
    (raw : String) :
    (interpret decode approved raw).2 = none ∧
    ((interpret decode approved raw).1.isFinished = true →
      (interpret decode approved raw).1.finalReport ≠ "") ∧
    (∀ c1 m1 c2 m2,
      decode (cleanJSON raw) zeroCompat = (c1, some m1) →
      decode (bracketRepair (cleanJSON raw)) c1 = (c2, some m2) →
      ((extractCommandString (cleanJSON raw)).2 = false ∨
       (extractCommandString (cleanJSON raw)).1 = "") →
      (interpret decode approved raw).1.isFinished = true ∧
      (interpret decode approved raw).1.finalReport =
        "❌ 解析失败: " ++ m1 ++ "\n原始响应:\n" ++ raw) := by
  have hsplit : (interpret decode approved raw).2 = none ∧
      ((interpret decode approved raw).1.isFinished = true →
        (interpret decode approved raw).1.finalReport ≠ "") := by
    rcases hd1 : decode (cleanJSON raw) zeroCompat with ⟨c1, e1⟩
    cases e1 with
    | none =>
      rw [interpret_eq_strict decode approved raw c1 hd1]
      exact ⟨rfl, fun hh => buildResponse_report_nonempty approved c1 hh⟩
    | some m1 =>
      rcases hd2 : decode (bracketRepair (cleanJSON raw)) c1 with ⟨c2, e2⟩
      cases e2 with
      | none =>
        rw [interpret_eq_repair decode approved raw c1 c2 m1 hd1 hd2]
        exact ⟨rfl, fun hh => buildResponse_report_nonempty approved c2 hh⟩
      | some m2 =>
        by_cases h3 : (extractCommandString (cleanJSON raw)).2 = true ∧
            (extractCommandString (cleanJSON raw)).1 ≠ ""
        · rw [interpret_eq_scan decode approved raw c1 c2 m1 m2 hd1 hd2 h3]
          exact ⟨rfl, fun hh => buildResponse_report_nonempty approved _ hh⟩
        · rw [interpret_eq_fail decode approved raw c1 c2 m1 m2 hd1 hd2 h3]
          refine ⟨rfl, fun _ => ?_⟩
          have ha : (("❌ 解析失败: " ++ m1) ++ "\n原始响应:\n").data ≠ [] := by
            intro hc
            have hc2 : ("❌ 解析失败: " ++ m1).data ++ ("\n原始响应:\n").data = [] := hc
            rcases List.append_eq_nil.mp hc2 with ⟨h1', h2'⟩
            exact absurd h2' (by decide)
          exact mk_append_ne_empty _ raw ha
  refine ⟨hsplit.1, hsplit.2, ?_⟩
  intro c1 m1 c2 m2 h1 h2 h3
  have h3' : ¬((extractCommandString (cleanJSON raw)).2 = true ∧
      (extractCommandString (cleanJSON raw)).1 ≠ "") := by
    rcases h3 with hfb | heb
    · rintro ⟨ht, _⟩
      rw [hfb] at ht
      exact Bool.false_ne_true ht
    · rintro ⟨_, hne⟩
      exact hne heb
  rw [interpret_eq_fail decode approved raw c1 c2 m1 m2 h1 h2 h3']
  exact ⟨rfl, rfl⟩

theorem c5_interpret_never_fails_hard_witness :
    (interpret (fun _ c => (c, some "boom")) [] "xyz").2 = none ∧
    (interpret (fun _ c => (c, some "boom")) [] "xyz").1.isFinished = true ∧
    (interpret (fun _ c => (c, some "boom")) [] "xyz").1.finalReport =
      "❌ 解析失败: boom\n原始响应:\nxyz" ∧
    (interpret (fun _ c => (c, some "boom")) [] "xyz").1.finalReport ≠ "" := by
  have h := c5_interpret_never_fails_hard (fun _ c => (c, some "boom")) [] "xyz"
  have hterm := h.2.2 zeroCompat "boom" zeroCompat "boom" rfl rfl (Or.inl (by decide))
  exact ⟨h.1, hterm.1, hterm.2, h.2.1 hterm.1⟩

/-- Claim C6: when the strict parse succeeds, a command given as a list of
strings (the tolerant schema's list field) contributes its last element as
the action's command, a command given as a single string is used as-is, and
`explanation` is accepted as an alias for a missing `thought`. -/
theorem c6_tolerant_schema_command_list (decode : Decoder) (approved : List String)
    (raw : String) (compat : CompatibilityResponse)
    (h : decode (cleanJSON raw) zeroCompat = (compat, none)) :
    (compat.command = "" → compat.cmdArray ≠ [] →
      (interpret decode approved raw).1.command = compat.cmdArray.getLastD "") ∧
    (compat.command ≠ "" →
      (interpret decode approved raw).1.command = compat.command) ∧
    (compat.thought = "" → compat.explanation ≠ "" →
      (interpret decode approved raw).1.thought = compat.explanation) := by
  rw [interpret_eq_strict decode approved raw compat h]
  refine ⟨fun hc ha => ?_, fun hc => ?_, fun ht he => ?_⟩
  · rw [buildResponse_command]
    simp only [adaptCommand]
    rw [if_neg (by simp [hc]), if_pos ha]
  · rw [buildResponse_command]
    simp only [adaptCommand]
    rw [if_pos hc]
  · rw [buildResponse_thought]
    simp only [adaptThought]
    rw [if_neg (by simp [ht]), if_pos he]

theorem c6_tolerant_schema_command_list_witness :
    (interpret (fun _ _ => ({ cmdArray := ["pwd", "ls"], explanation := "checking" }, none))
      [] "x").1.command = "ls" ∧
    (interpret (fun _ _ => ({ cmdArray := ["pwd", "ls"], explanation := "checking" }, none))
      [] "x").1.thought = "checking" := by
  have h := c6_tolerant_schema_command_list
    (fun _ _ => ({ cmdArray := ["pwd", "ls"], explanation := "checking" }, none)) [] "x"
    { cmdArray := ["pwd", "ls"], explanation := "checking" } rfl
  exact ⟨(h.1 rfl (by simp)).trans rfl, h.2.2 rfl (by simp)⟩

/-- Claim C7: the scanning extractor recovers the intact command from a
payload whose value was escaped for JSON (quotes included) even though the
surrounding text need not be valid JSON, un-escapes the five recognized
escape pairs, preserves unrecognized pairs verbatim, and terminates on the
first unescaped closing quote (demonstrated by the concrete scan). -/
theorem c7_scan_extractor_roundtrip :
    (∀ c : String,
      extractCommandString ("\x7b\"command\": \"" ++ encodeJSONString c ++ "\"\x7d") =
        (c, true)) ∧
    extractCommandString "\x7b\"command\": \"a\\nb\\qc\\\"d\\\\e\\tf\"\x7d" =
      ("a\nb\\qc\"d\\e\tf", true) := by
  constructor
  · intro c
    have h : extractCommandString ("\x7b\"command\": \"" ++ encodeJSONString c ++ "\"\x7d") =
        scanValue (encodeL c.data ++ '"' :: ['\x7d']) false [] := rfl
    rw [h, scanValue_encode]
    simp
  · decide

/-- Claim C8: when the history exceeds the fifteen-message threshold,
compression replaces the oldest ten messages by exactly one system-role
summary message, leaves the newer messages untouched (so sixteen messages
become seven), and a summarization failure leaves the history exactly
unmodified. -/
theorem c8_history_compression (callLLM : List Message → Except String String)
    (history : List Message) (h : history.length > 15) :
    (∀ s, callLLM (summaryPromptFor (history.take 10)) = .ok s →
      maybeCompress callLLM history =
        ({ role := "system", content := "【前情提要】:\n" ++ s } : Message) :: history.drop 10 ∧
      (maybeCompress callLLM history).length = history.length - 9) ∧
    (∀ e, callLLM (summaryPromptFor (history.take 10)) = .error e →
      maybeCompress callLLM history = history) := by
  have h10 : ¬(history.length < 10) := by omega
  constructor
  · intro s hs
    have hm : maybeCompress callLLM history =
        ({ role := "system", content := "【前情提要】:\n" ++ s } : Message) :: history.drop 10 := by
      unfold maybeCompress compressHistory
      rw [if_pos h, if_neg h10, hs]
    refine ⟨hm, ?_⟩
    rw [hm, List.length_cons, List.length_drop]
    omega
  · intro e he
    unfold maybeCompress compressHistory
    rw [if_pos h, if_neg h10, he]

theorem c8_history_compression_witness :
    (List.replicate 16 ({ role := "user", content := "m" } : Message)).length > 15 ∧
    (maybeCompress (fun _ => Except.ok "S")
      (List.replicate 16 ({ role := "user", content := "m" } : Message))).length = 7 ∧
    maybeCompress (fun _ => Except.error "E")
      (List.replicate 16 ({ role := "user", content := "m" } : Message)) =
      List.replicate 16 ({ role := "user", content := "m" } : Message) := by
  refine ⟨by decide, ?_, ?_⟩
  · have h := (c8_history_compression (fun _ => Except.ok "S")
      (List.replicate 16 ({ role := "user", content := "m" } : Message)) (by decide)).1 "S" rfl
    exact h.2.trans (by decide)
  · exact (c8_history_compression (fun _ => Except.error "E")
      (List.replicate 16 ({ role := "user", content := "m" } : Message)) (by decide)).2 "E" rfl

/-- Claim C9 counterexample: the local-execution marker is not recognized as
a prefix.  The command `echo local_run x` does not begin with the marker,
yet the remote backend routes it to local execution (with the marker text
excised from the middle), and the local backend also strips it. -/
theorem c9_prefix_marker_counterexample :
    hasPrefixS "echo local_run x" "local_run " = false ∧
    sshRunPath "echo local_run x" = SSHRunPath.localExec "echo x" ∧
    localCleaned "echo local_run x" = "echo x" :=
  ⟨by decide, by decide, by decide⟩

/-- Claim C9 (amended): both backends recognize the local-execution marker
as a substring, not a prefix: the remote backend routes a command to a
one-shot local process exactly when the command contains `local_run `
anywhere, removing every occurrence; the local backend likewise removes
every occurrence before trimming; a command without the marker text is
processed unchanged (up to trimming on the local backend). -/
theorem c9_marker_substring_routing (cmd : String) :
    ((∃ r, sshRunPath cmd = SSHRunPath.localExec r) ↔ containsS cmd "local_run " = true) ∧
    (containsS cmd "local_run " = true →
      sshRunPath cmd = SSHRunPath.localExec (replaceAllS cmd "local_run " "")) ∧
    (containsS cmd "local_run " = true →
      localCleaned cmd = trimSpace (replaceAllS cmd "local_run " "")) ∧
    (containsS cmd "local_run " = false → localCleaned cmd = trimSpace cmd) := by
  by_cases h : containsS cmd "local_run " = true
  · refine ⟨⟨fun _ => h, fun _ => ⟨replaceAllS cmd "local_run " "", ?_⟩⟩,
      fun _ => ?_, fun _ => ?_, fun hfb => ?_⟩
    · simp only [sshRunPath]
      rw [if_pos h]
    · simp only [sshRunPath]
      rw [if_pos h]
    · simp only [localCleaned]
      rw [if_pos h]
    · rw [hfb] at h
      exact absurd h Bool.false_ne_true
  · refine ⟨⟨fun hex => ?_, fun ht => absurd ht h⟩, fun ht => absurd ht h,
      fun ht => absurd ht h, fun _ => ?_⟩
    · exfalso
      obtain ⟨r, hr⟩ := hex
      simp only [sshRunPath] at hr
      rw [if_neg h] at hr
      split at hr
      · split at hr
        · exact SSHRunPath.noConfusion hr
        · exact SSHRunPath.noConfusion hr
      · split at hr
        · split at hr
          · exact SSHRunPath.noConfusion hr
          · exact SSHRunPath.noConfusion hr
        · exact SSHRunPath.noConfusion hr
    · simp only [localCleaned]
      rw [if_neg h]

theorem c9_marker_substring_routing_witness :
    containsS "local_run ls" "local_run " = true ∧
    sshRunPath "local_run ls" = SSHRunPath.localExec (replaceAllS "local_run ls" "local_run " "") :=
  ⟨by decide, (c9_marker_substring_routing "local_run ls").2.1 (by decide)⟩

/-- Claim C10: payload cleaning rewrites every `\|` pair in the
fence-stripped model text to `\\|`; a payload that already correctly
JSON-escaped a backslash before a pipe is therefore altered before parsing,
and the extracted command differs from the string the model encoded (the
model encoded `a\|b`; extraction yields `a\\|b`). -/
theorem c10_pipe_escape_rewrite :
    (∀ s : String, cleanJSON s = replaceAllS (fenceStrip s) "\\|" "\\\\|") ∧
    "\x7b\"command\": \"a\\\\|b\"\x7d" =
      "\x7b\"command\": \"" ++ encodeJSONString "a\\|b" ++ "\"\x7d" ∧
    cleanJSON "\x7b\"command\": \"a\\\\|b\"\x7d" = "\x7b\"command\": \"a\\\\\\|b\"\x7d" ∧
    extractCommandString (cleanJSON "\x7b\"command\": \"a\\\\|b\"\x7d") = ("a\\\\|b", true) ∧
    "a\\\\|b" ≠ "a\\|b" := by
  refine ⟨?_, by decide, by decide, by decide, by decide⟩
  intro s
  unfold cleanJSON
  by_cases h : containsS (fenceStrip s) "\\|" = true
  · rw [if_pos h]
  · rw [if_neg h]
    have hf : containsL ("\\|").data (fenceStrip s).data = false := by
      cases hb : containsS (fenceStrip s) "\\|" with
      | false => exact hb
      | true => exact absurd hb h
    show fenceStrip s = replaceAllS (fenceStrip s) "\\|" "\\\\|"
    unfold replaceAllS
    rw [replaceAllL_of_not_contains _ _ _ hf]

end DeepSentry
